import Mathlib

/-!
Shallow embedding of the MarkdownNotebook note-persistence core
(`MarkdownNotebook/utils.py`, `MarkdownNotebook/file_manager.py`,
`MarkdownNotebook/search.py`) and proofs about it.

Python strings are modelled as `List Char` (`Str`).  File-system reads,
directory listings and the wall clock are effects; they are passed to the
embedded functions as explicit arguments (the text a file holds, the
listing of a directory, the current timestamp).  The PyYAML calls
(`yaml.safe_load`, `yaml.dump`) are modelled for the fragment of YAML the
program emits and consumes: flat block mappings whose values are scalars
or block sequences of scalars, with double-quoted scalar quoting (PyYAML
quotes every scalar that would otherwise change type or break the
document, so quoting every emitted scalar is value-faithful: the loaded
value is the same).  Python `str.lower` is modelled on ASCII.
-/

abbrev Str := List Char

/-- Python whitespace for `str.strip` / `str.split` (ASCII subset). -/
def isPySpace (c : Char) : Bool :=
  c = ' ' || c = '\t' || c = '\n' || c = '\r' || c = '\x0b' || c = '\x0c'

/-- Drop leading Python whitespace (`str.lstrip`). -/
def trimL (s : Str) : Str := s.dropWhile isPySpace

/-- Drop trailing Python whitespace (`str.rstrip`). -/
def trimR (s : Str) : Str := ((s.reverse).dropWhile isPySpace).reverse

/-- Python `str.strip()`. -/
def pyStrip (s : Str) : Str := trimR (trimL s)

/-- Uppercase-to-lowercase table for the ASCII letters. -/
def ucPairs : List (Char × Char) :=
  [('A', 'a'), ('B', 'b'), ('C', 'c'), ('D', 'd'), ('E', 'e'), ('F', 'f'), ('G', 'g'),
   ('H', 'h'), ('I', 'i'), ('J', 'j'), ('K', 'k'), ('L', 'l'), ('M', 'm'), ('N', 'n'),
   ('O', 'o'), ('P', 'p'), ('Q', 'q'), ('R', 'r'), ('S', 's'), ('T', 't'), ('U', 'u'),
   ('V', 'v'), ('W', 'w'), ('X', 'x'), ('Y', 'y'), ('Z', 'z')]

/-- Python `str.lower()` on one character (ASCII letters only). -/
def pyLowerChar (c : Char) : Char :=
  match ucPairs.find? (fun p => p.1 = c) with
  | some p => p.2
  | none => c

/-- Python `str.lower()`. -/
def lowerStr (s : Str) : Str := s.map pyLowerChar

/-- Worker for `pySplit`: `acc` holds the current word, reversed. -/
def pySplitGo : Str → Str → List Str
  | [], acc => if acc = [] then [] else [acc.reverse]
  | c :: r, acc =>
    if isPySpace c then
      if acc = [] then pySplitGo r [] else acc.reverse :: pySplitGo r []
    else pySplitGo r (c :: acc)

/-- Python `str.split()` with no argument: split on whitespace runs,
discarding empty pieces. -/
def pySplit (s : Str) : List Str := pySplitGo s []

/-- Boolean list-prefix test. -/
def isPre : Str → Str → Bool
  | [], _ => true
  | _ :: _, [] => false
  | a :: as, b :: bs => a = b && isPre as bs

/-- Python `needle in hay` on strings: contiguous substring test. -/
def substr (n : Str) : Str → Bool
  | [] => isPre n []
  | c :: t => isPre n (c :: t) || substr n t

/-- Python `" ".join(fields)`. -/
def joinSp : List Str → Str
  | [] => []
  | [x] => x
  | x :: xs => x ++ ' ' :: joinSp xs

/-- Python string `<`: lexicographic comparison by code point. -/
def strLt : Str → Str → Bool
  | [], [] => false
  | [], _ :: _ => true
  | _ :: _, [] => false
  | a :: as, b :: bs => a < b || (a = b && strLt as bs)

/-! ### YAML values (`yaml.safe_load` results restricted to the shapes
the program reads and writes) -/

inductive YVal where
  | ystr (s : Str)
  | ynull
  | ylist (xs : List Str)
  | ymap (kvs : List (Str × YVal))

/-- Python `dict.get(k)` on the parsed mapping (keys are unique in every
mapping the program produces or consumes). -/
def dictGet : List (Str × YVal) → Str → Option YVal
  | [], _ => none
  | (k', v) :: r, k => if k' = k then some v else dictGet r k

/-! ### Emission (`yaml.dump` / `generate_yaml_front_matter`) -/

/-- Escape one character for a double-quoted YAML scalar. -/
def escChar (c : Char) : Str :=
  if c = '\\' then ['\\', '\\']
  else if c = '"' then ['\\', '"']
  else if c = '\n' then ['\\', 'n']
  else if c = '\t' then ['\\', 't']
  else if c = '\r' then ['\\', 'r']
  else [c]

def escapeStr : Str → Str
  | [] => []
  | c :: r => escChar c ++ escapeStr r

/-- A double-quoted YAML scalar holding exactly `s`. -/
def dq (s : Str) : Str := '"' :: (escapeStr s ++ ['"'])

/-- Metadata dictionary shape built by `save_note`: the four keys in
insertion order (`yaml.dump(..., sort_keys=False)`). -/
structure Meta where
  title : Str
  tags : List Str
  created : Option Str
  updated : Option Str

/-- Scalar emission for an optional timestamp (`None` dumps as `null`). -/
def scalarOut : Option Str → Str
  | none => ("null").toList
  | some s => dq s

/-- The YAML lines `yaml.dump` produces for the save-time metadata dict:
`title`, then `tags` (empty list inline as `[]`, otherwise a block
sequence), then `created`, then `updated`. -/
def metaLines (m : Meta) : List Str :=
  (("title: ").toList ++ dq m.title)
    :: (if m.tags = [] then [("tags: []").toList]
        else ("tags:").toList :: m.tags.map (fun t => '-' :: ' ' :: dq t))
    ++ [("created: ").toList ++ scalarOut m.created,
        ("updated: ").toList ++ scalarOut m.updated]

/-- Join lines, terminating each with a newline. -/
def joinLines : List Str → Str
  | [] => []
  | l :: ls => l ++ '\n' :: joinLines ls

/-- Embeds `generate_yaml_front_matter` for the metadata dictionary
`save_note` builds (always non-empty, so a block is always emitted):
`---\n<yaml>---\n`.  The datetime-to-ISO conversion branch is the
identity here because timestamps are already strings. -/
def generate_yaml_front_matter (m : Meta) : Str :=
  '-' :: '-' :: '-' :: '\n' :: (joinLines (metaLines m) ++ ('-' :: '-' :: '-' :: '\n' :: []))

/-! ### Parsing (`yaml.safe_load` model, returning `none` for
`yaml.YAMLError`) -/

/-- Unescape one escaped character of a double-quoted scalar. -/
def unescChar (c : Char) : Option Char :=
  if c = '\\' then some '\\'
  else if c = '"' then some '"'
  else if c = 'n' then some '\n'
  else if c = 't' then some '\t'
  else if c = 'r' then some '\r'
  else none

/-- Scan the interior of a double-quoted scalar: returns the decoded
content and the text after the closing quote, or `none` if unterminated
or an unknown escape appears. -/
def scanDQ : Str → Option (Str × Str)
  | [] => none
  | c :: rest =>
    if c = '"' then some ([], rest)
    else if c = '\\' then
      match rest with
      | [] => none
      | e :: rest' =>
        match unescChar e with
        | none => none
        | some d => (scanDQ rest').map (fun p => (d :: p.1, p.2))
    else (scanDQ rest).map (fun p => (c :: p.1, p.2))
termination_by structural l => l

/-- Worker for `splitKV`: scan for the first `": "` (or a trailing `:`),
accumulating the key reversed.  A `:` not followed by a space stays part
of the key, as in YAML block mappings. -/
def splitKVGo : Str → Str → Option (Str × Str)
  | [], _ => none
  | c :: rest, acc =>
    if c = ':' then
      match rest with
      | [] => some (acc.reverse, [])
      | r :: v => if r = ' ' then some (acc.reverse, v) else splitKVGo rest (c :: acc)
    else splitKVGo rest (c :: acc)

/-- Split a line `key: value` (or `key:`) of a block mapping. -/
def splitKV (l : Str) : Option (Str × Str) := splitKVGo l []

/-- Split flow-sequence interior on commas. -/
def splitComma : Str → Str → List Str
  | [], acc => [acc.reverse]
  | c :: r, acc => if c = ',' then acc.reverse :: splitComma r [] else splitComma r (c :: acc)

/-- Parse one scalar value: double-quoted, an inline flow sequence of
plain scalars, `null`/`~`/empty, or a plain string. -/
def parseScalar (v : Str) : Option YVal :=
  match v with
  | '"' :: rest =>
    match scanDQ rest with
    | some (s, []) => some (.ystr s)
    | _ => none
  | '[' :: rest =>
    match rest.reverse with
    | ']' :: innerRev =>
      let inner := innerRev.reverse
      if pyStrip inner = [] then some (.ylist [])
      else
        let items := (splitComma inner []).map pyStrip
        if items.any (fun i => i = []) then none else some (.ylist items)
    | _ => none
  | _ =>
    let w := pyStrip v
    if w = [] || w = ("null").toList || w = ("~").toList then some .ynull
    else some (.ystr w)

/-- Is this line a block-sequence item (`- ...`)? -/
def isDash : Str → Bool
  | '-' :: ' ' :: _ => true
  | _ => false

/-- Flush a pending `key:` whose block-sequence items have been
collected: no items means the value is `null`. -/
def flushPending : Option (Str × List Str) → List (Str × YVal) → List (Str × YVal)
  | none, acc => acc
  | some (k, []), acc => (k, .ynull) :: acc
  | some (k, i :: is), acc => (k, .ylist (i :: is)) :: acc

/-- Parse the lines of a flat block mapping.  `pending` carries a
`key:` awaiting block-sequence items; `acc` holds finished pairs,
reversed. -/
def pmGo : Option (Str × List Str) → List (Str × YVal) → List Str → Option (List (Str × YVal))
  | pending, acc, [] => some (flushPending pending acc).reverse
  | pending, acc, line :: rest =>
    if isDash line then
      match pending with
      | none => none
      | some (k, items) =>
        match parseScalar (line.drop 2) with
        | some (.ystr s) => pmGo (some (k, items ++ [s])) acc rest
        | _ => none
    else
      match splitKV line with
      | none => none
      | some (k, v) =>
        let acc' := flushPending pending acc
        if v = [] then pmGo (some (k, [])) acc' rest
        else
          match parseScalar v with
          | none => none
          | some y => pmGo none ((k, y) :: acc') rest

/-- Split a string into lines at `'\n'` (Python `str.split('\n')`
semantics: a trailing newline yields a trailing empty line). -/
def linesOf : Str → List Str
  | [] => [[]]
  | c :: r =>
    if c = '\n' then [] :: linesOf r
    else
      match linesOf r with
      | [] => [[c]]
      | l :: ls => (c :: l) :: ls

/-- Parse a top-level block sequence of scalar lines. -/
def topSeq : List Str → Option (List Str)
  | [] => some []
  | line :: rest =>
    if isDash line then
      match parseScalar (line.drop 2) with
      | some (.ystr s) => (topSeq rest).map (fun xs => s :: xs)
      | _ => none
    else none

/-- Model of `yaml.safe_load` on the front-matter interior.  `none`
stands for `yaml.YAMLError`. -/
def yamlLoad (s : Str) : Option YVal :=
  match (linesOf s).filter (fun l => l ≠ []) with
  | [] => some .ynull
  | l :: ls =>
    if isDash l then (topSeq (l :: ls)).map .ylist
    else if (splitKV l).isSome then (pmGo none [] (l :: ls)).map .ymap
    else
      match ls with
      | [] => parseScalar l
      | _ :: _ => none

/-! ### The front-matter regex
`^---\s*\n(.*?\n)^---\s*\n` with `DOTALL | MULTILINE`, used via
`.match` (anchored at the start). -/

/-- Match `\s*\n` greedily at the head of `t`: the longest whitespace
prefix ending in a newline.  Returns the text after the match. -/
def afterWsNl (t : Str) : Option Str :=
  let run := t.takeWhile isPySpace
  if '\n' ∈ run then
    some ((run.reverse.takeWhile (fun c => c ≠ '\n')).reverse ++ t.drop run.length)
  else none

/-- Try to match the closing delimiter `---\s*\n` at the head of `t`;
returns the body after it. -/
def tryClose (t : Str) : Option Str :=
  if t.take 3 = ['-', '-', '-'] then afterWsNl (t.drop 3) else none

/-- Scan for the non-greedy group `(.*?\n)` followed by the closing
delimiter: a close is attempted exactly after each consumed newline.
Returns (group text, body). -/
def findClose (acc : Str) : Str → Option (Str × Str)
  | [] => none
  | c :: r =>
    if c = '\n' then
      match tryClose r with
      | some body => some (acc ++ ['\n'], body)
      | none => findClose (acc ++ ['\n']) r
    else findClose (acc ++ [c]) r

/-- Apply the front-matter regex at the start of `s`: on a match,
returns the group (YAML interior) and the text after the whole match. -/
def fmSplit (s : Str) : Option (Str × Str) :=
  if s.take 3 = ['-', '-', '-'] then
    match afterWsNl (s.drop 3) with
    | none => none
    | some rest => findClose [] rest
  else none

/-- Embeds `parse_yaml_front_matter`: on no match, `({}, original)`; on
a YAML error, `({}, original)` (the caught `yaml.YAMLError` branch); on
a non-mapping value, `({}, text after the block)`; on a mapping, the
mapping and the text after the block. -/
def parse_yaml_front_matter (s : Str) : List (Str × YVal) × Str :=
  match fmSplit s with
  | none => ([], s)
  | some (inner, body) =>
    match yamlLoad inner with
    | none => ([], s)
    | some (.ymap kvs) => (kvs, body)
    | some _ => ([], body)

/-! ### The Note store (`file_manager.py`) -/

/-- The `Note` entity, typed as in the spec data model (§3). -/
structure Note where
  filepath : Str
  title : Str
  tags : List Str
  created : Option Str
  updated : Option Str
  content : Str
deriving DecidableEq

/-- `os.path.basename` (POSIX): the part after the last `/`. -/
def basename (p : Str) : Str := (p.reverse.takeWhile (fun c => c ≠ '/')).reverse

/-- The root of `os.path.splitext` applied to a basename: strip the
part from the last `.` on, unless every character before that dot is
itself a dot (CPython's leading-dot rule). -/
def splitextBase (b : Str) : Str :=
  match b.reverse.dropWhile (fun c => c ≠ '.') with
  | [] => b
  | _ :: beforeRev => if beforeRev.any (fun c => c ≠ '.') then beforeRev.reverse else b

/-- Convert a metadata value to an optional timestamp string as stored
in a `Note` (`null` and values outside the data model carry no
timestamp). -/
def yvalTs : YVal → Option Str
  | .ystr s => some s
  | _ => none

/-- Extract a tag list from a metadata value. -/
def yvalTags : YVal → List Str
  | .ylist xs => xs
  | _ => []

/-- Embeds `load_note`.  The file's text and the current timestamp
(`get_current_timestamp()`) are explicit arguments; reading never fails
here (a read failure is modelled at the `scan` level).  Defaults follow
the source: `title` from the file's base name, `tags` to `[]`,
`created` to now, `updated` to `created`. -/
def load_note (filepath text now : Str) : Note :=
  let md := parse_yaml_front_matter text
  let created :=
    match dictGet md.1 (("created").toList) with
    | none => some now
    | some v => yvalTs v
  { filepath := filepath
    title :=
      match dictGet md.1 (("title").toList) with
      | some (.ystr s) => s
      | _ => splitextBase (basename filepath)
    tags :=
      match dictGet md.1 (("tags").toList) with
      | some v => yvalTags v
      | none => []
    created := created
    updated :=
      match dictGet md.1 (("updated").toList) with
      | none => created
      | some v => yvalTs v
    content := md.2 }

/-- Embeds `save_note`: returns the full file text written
(`f"{front_matter_str}\n{note.content.strip()}"`) together with the
note object as it stands after the call (the source reads the note's
fields and never assigns to them). -/
def save_note (n : Note) : Str × Note :=
  (generate_yaml_front_matter ⟨n.title, n.tags, n.created, n.updated⟩ ++ '\n' :: pyStrip n.content, n)

/-- Exceptions the embedded code can raise. -/
inductive PyExc where
  | attributeError
deriving DecidableEq

/-- Embeds `create_new_note`.  The slug expression
`title.lower().replace(' ', '_'). Gsub(r'[^a-z0-9_]', '')` looks up the
attribute `Gsub` on a `str`; `str` has no such attribute, so evaluating
the f-string raises `AttributeError` unconditionally, before any
filesystem operation, and there is no enclosing `try`. -/
def create_new_note (_notes_dir _title : Str) (_tags : List Str) (_content : Str) :
    Except PyExc Note :=
  Except.error PyExc.attributeError

/-- The states the filesystem can be in at the path handed to
`delete_note_file`: no file, a removable file, or a file whose removal
raises (the caught I/O-failure branch). -/
inductive DeleteFs where
  | missing
  | removable
  | removeRaises
deriving DecidableEq

/-- Embeds `delete_note_file`: `True` only when an existing file is
removed; `False` both on the `# File not found` return and in the
`except` branch. -/
def delete_note_file : DeleteFs → Bool
  | .missing => false
  | .removable => true
  | .removeRaises => false

/-- Does `glob.glob(os.path.join(dir, "*.md"))` match this file name?
`*` does not match a leading dot. -/
def globMd (name : Str) : Bool :=
  match name with
  | [] => false
  | c :: _ => c ≠ '.' && name.reverse.take 3 = ['d', 'm', '.']

/-- `os.path.join` for a directory and a file name (POSIX, directory
without trailing slash). -/
def pathJoin (d f : Str) : Str := d ++ '/' :: f

/-- Embeds `scan_notes_directory`.  The directory is an explicit
listing: `none` when `os.path.isdir` is false, otherwise the file names
with `some text` for a readable file and `none` for one whose read
raises (that `load_note` call returns `None` and the file is
skipped). -/
def scan_notes_directory (notes_dir : Str) (listing : Option (List (Str × Option Str)))
    (now : Str) : List Note :=
  match listing with
  | none => []
  | some files =>
    (files.filter (fun f => globMd f.1)).filterMap
      (fun f => f.2.map (fun text => load_note (pathJoin notes_dir f.1) text now))

/-! ### The search index (`search.py`) -/

/-- One entry of `SearchIndex.notes_data`. -/
structure SearchEntry where
  id : Str
  title : Str
  tags : List Str
  content : Str
  original : Note
deriving DecidableEq

/-- The entry `build_index` stores for one note. -/
def indexEntry (n : Note) : SearchEntry :=
  ⟨n.filepath, lowerStr n.title, n.tags.map lowerStr, lowerStr n.content, n⟩

/-- Embeds `SearchIndex.build_index`. -/
def build_index (notes : List Note) : List SearchEntry := notes.map indexEntry

/-- The searchable fields of an entry under the three flags, in source
order: title, tags (extended), content. -/
def searchFields (e : SearchEntry) (st sts sc : Bool) : List Str :=
  (if st then [e.title] else []) ++ (if sts then e.tags else []) ++ (if sc then [e.content] else [])

/-- Does every query term occur in the space-joined searchable text of
this entry? -/
def entryMatches (qterms : List Str) (st sts sc : Bool) (e : SearchEntry) : Bool :=
  qterms.all (fun t => substr t (joinSp (searchFields e st sts sc)))

/-- The main loop of `SearchIndex.search`: `seen` is
`seen_filepaths`. -/
def searchGo (qterms : List Str) (st sts sc : Bool) :
    List SearchEntry → List Note → List Str → List Note
  | [], results, _ => results
  | e :: es, results, seen =>
    if entryMatches qterms st sts sc e then
      if e.id ∈ seen then searchGo qterms st sts sc es results seen
      else searchGo qterms st sts sc es (results ++ [e.original]) (e.id :: seen)
    else searchGo qterms st sts sc es results seen

/-- Embeds `SearchIndex.search`. -/
def search (idx : List SearchEntry) (query : Str) (st sts sc : Bool) : List Note :=
  if pyStrip query = [] then idx.map (fun e => e.original)
  else searchGo (pySplit (lowerStr query)) st sts sc idx [] []

/-- The per-note matching predicate of `search`, phrased over the note
itself: every whitespace-split term of the lower-cased query is a
contiguous substring of the enabled lower-cased fields joined with
single spaces. -/
def noteMatches (query : Str) (st sts sc : Bool) (n : Note) : Bool :=
  entryMatches (pySplit (lowerStr query)) st sts sc (indexEntry n)

/-- All tags of the indexed notes, in index order, original casing
(the loop of `get_all_tags` over `item['original_note'].tags`). -/
def allNoteTags : List SearchEntry → List Str
  | [] => []
  | e :: es => e.original.tags ++ allNoteTags es

/-- The comparison handed to `sorted`: code-point-lexicographic `≤`. -/
def strLe (a b : Str) : Prop := strLt b a = false

instance : DecidableRel strLe := fun _ _ => inferInstanceAs (Decidable (_ = false))

/-- Embeds `SearchIndex.get_all_tags`: `sorted(list(set(...)))` — the
distinct tags, sorted by code point. -/
def get_all_tags (idx : List SearchEntry) : List Str :=
  List.insertionSort strLe (allNoteTags idx).dedup


/-! ## Lemmas: Python `strip` -/

theorem dropWhile_dropWhile (p : Char → Bool) (l : Str) :
    (l.dropWhile p).dropWhile p = l.dropWhile p := by
  induction l with
  | nil => rfl
  | cons c r ih =>
    by_cases h : p c
    · simp [List.dropWhile, h, ih]
    · simp [List.dropWhile, h]

theorem trimR_trimR (s : Str) : trimR (trimR s) = trimR s := by
  simp [trimR, dropWhile_dropWhile]

theorem trimL_head (s : Str) (c : Char) (cs : Str) (h : trimL s = c :: cs) :
    isPySpace c = false := by
  induction s with
  | nil => simp [trimL] at h
  | cons a r ih =>
    by_cases ha : isPySpace a
    · exact ih (by simpa [trimL, List.dropWhile, ha] using h)
    · simp [trimL, List.dropWhile, ha] at h
      simp [← h.1, ha]

theorem trimR_prefix (s : Str) : trimR s <+: s := by
  rw [trimR, ← List.reverse_suffix, List.reverse_reverse]
  exact List.dropWhile_suffix isPySpace

/-- The stripped string is empty or starts with a non-whitespace character. -/
theorem pyStrip_head (s : Str) :
    pyStrip s = [] ∨ ∃ c cs, pyStrip s = c :: cs ∧ isPySpace c = false := by
  cases h : pyStrip s with
  | nil => exact Or.inl rfl
  | cons c cs =>
    right
    refine ⟨c, cs, rfl, ?_⟩
    have hpre : trimR (trimL s) <+: trimL s := trimR_prefix (trimL s)
    rw [pyStrip] at h
    obtain ⟨t, ht⟩ := hpre
    rw [h] at ht
    exact trimL_head s c (cs ++ t) ht.symm

theorem trimL_of_head (s : Str) (h : s = [] ∨ ∃ c cs, s = c :: cs ∧ isPySpace c = false) :
    trimL s = s := by
  rcases h with h | ⟨c, cs, rfl, hc⟩
  · simp [h, trimL]
  · simp [trimL, List.dropWhile, hc]

theorem pyStrip_idem (s : Str) : pyStrip (pyStrip s) = pyStrip s := by
  have h1 : trimL (pyStrip s) = pyStrip s := trimL_of_head _ (pyStrip_head s)
  rw [pyStrip, h1, pyStrip, trimR_trimR]

/-- A string whose characters are all whitespace strips to empty. -/
theorem pyStrip_all_space (s : Str) (h : ∀ c ∈ s, isPySpace c) : pyStrip s = [] := by
  have : trimL s = [] := by
    induction s with
    | nil => rfl
    | cons c r ih =>
      have hc := h c (by simp)
      simp only [trimL, List.dropWhile, hc]
      exact ih (fun x hx => h x (by simp [hx]))
  simp [pyStrip, this, trimR]

/-! ## Lemmas: double-quoted scalar round trip -/

theorem escChar_no_newline (c : Char) : '\n' ∉ escChar c := by
  unfold escChar
  split
  · simp
  · split
    · simp
    · split
      · simp
      · split
        · simp
        · split
          · simp
          · rename_i h1 h2 h3 h4 h5
            simp only [List.mem_singleton]
            exact fun hh => h3 hh.symm

theorem escapeStr_no_newline (s : Str) : '\n' ∉ escapeStr s := by
  induction s with
  | nil => simp [escapeStr]
  | cons c r ih =>
    simp only [escapeStr, List.mem_append]
    rintro (h | h)
    · exact escChar_no_newline c h
    · exact ih h

theorem dq_no_newline (s : Str) : '\n' ∉ dq s := by
  simp only [dq, List.mem_cons, List.mem_append]
  rintro (h | h | h)
  · simp at h
  · exact escapeStr_no_newline s h
  · simp at h

theorem scanDQ_cons (c : Char) (rest : Str) (h1 : c ≠ '"') (h2 : c ≠ '\\') :
    scanDQ (c :: rest) = (scanDQ rest).map (fun p => (c :: p.1, p.2)) := by
  rw [scanDQ.eq_def]
  simp [h1, h2]

theorem scanDQ_esc (e : Char) (d : Char) (rest : Str) (h : unescChar e = some d) :
    scanDQ ('\\' :: e :: rest) = (scanDQ rest).map (fun p => (d :: p.1, p.2)) := by
  rw [scanDQ.eq_def]
  simp [h]

theorem scanDQ_close (rest : Str) : scanDQ ('"' :: rest) = some ([], rest) := by
  rw [scanDQ.eq_def]
  simp

theorem scanDQ_escape (s : Str) : ∀ tail, scanDQ (escapeStr s ++ '"' :: tail) = some (s, tail) := by
  induction s with
  | nil => intro tail; simp [escapeStr, scanDQ_close]
  | cons c r ih =>
    intro tail
    by_cases h1 : c = '\\'
    · subst h1
      simp [escapeStr, escChar, scanDQ_esc '\\' '\\' _ rfl, ih tail]
    · by_cases h2 : c = '"'
      · subst h2
        simp [escapeStr, escChar, h1, scanDQ_esc '"' '"' _ rfl, ih tail]
      · by_cases h3 : c = '\n'
        · subst h3
          simp [escapeStr, escChar, h1, h2, scanDQ_esc 'n' '\n' _ rfl, ih tail]
        · by_cases h4 : c = '\t'
          · subst h4
            simp [escapeStr, escChar, scanDQ_esc 't' '\t' _ rfl, ih tail]
          · by_cases h5 : c = '\r'
            · subst h5
              simp [escapeStr, escChar, scanDQ_esc 'r' '\r' _ rfl, ih tail]
            · simp [escapeStr, escChar, h1, h2, h3, h4, h5, scanDQ_cons c _ h2 h1, ih tail]

theorem parseScalar_dq (s : Str) : parseScalar (dq s) = some (.ystr s) := by
  have h : scanDQ (escapeStr s ++ ['"']) = some (s, []) := scanDQ_escape s []
  simp only [dq, parseScalar]
  rw [h]

/-! ## Lemmas: key-value lines -/

theorem splitKVGo_key (pre : Str) (h : ':' ∉ pre) :
    ∀ acc v, splitKVGo (pre ++ ':' :: ' ' :: v) acc = some (acc.reverse ++ pre, v) := by
  induction pre with
  | nil => intro acc v; simp [splitKVGo]
  | cons c pre' ih =>
    intro acc v
    have hc : c ≠ ':' := fun hh => h (by simp [hh])
    have h' : ':' ∉ pre' := fun hh => h (by simp [hh])
    simp only [List.cons_append, splitKVGo, hc, if_false, List.append_eq]
    rw [ih h' (c :: acc) v]
    simp

theorem splitKVGo_keyEnd (pre : Str) (h : ':' ∉ pre) :
    ∀ acc, splitKVGo (pre ++ [':']) acc = some (acc.reverse ++ pre, []) := by
  induction pre with
  | nil => intro acc; simp [splitKVGo]
  | cons c pre' ih =>
    intro acc
    have hc : c ≠ ':' := fun hh => h (by simp [hh])
    have h' : ':' ∉ pre' := fun hh => h (by simp [hh])
    simp only [List.cons_append, splitKVGo, hc, if_false, List.append_eq]
    rw [ih h' (c :: acc)]
    simp

/-! ## Lemmas: block-mapping parsing inverts the emitted metadata -/

theorem splitKV_lit (pre : Str) (hp : ':' ∉ pre) (v : Str) :
    splitKV (pre ++ ':' :: ' ' :: v) = some (pre, v) := by
  unfold splitKV
  rw [splitKVGo_key pre hp [] v]
  simp

theorem splitKV_litEnd (pre : Str) (hp : ':' ∉ pre) :
    splitKV (pre ++ [':']) = some (pre, []) := by
  unfold splitKV
  rw [splitKVGo_keyEnd pre hp []]
  simp

/-- The loaded metadata value for an optional timestamp. -/
def optY : Option Str → YVal
  | none => .ynull
  | some s => .ystr s

/-- The mapping `yaml.safe_load` recovers from the emitted front-matter
of a metadata dictionary. -/
def metaKVs (m : Meta) : List (Str × YVal) :=
  [(("title").toList, .ystr m.title), (("tags").toList, .ylist m.tags),
   (("created").toList, optY m.created), (("updated").toList, optY m.updated)]

theorem parseScalar_scalarOut (o : Option Str) : parseScalar (scalarOut o) = some (optY o) := by
  cases o with
  | none => rfl
  | some s => exact parseScalar_dq s

theorem scalarOut_ne_nil (o : Option Str) : scalarOut o ≠ [] := by
  cases o with
  | none => simp [scalarOut]
  | some s => simp [scalarOut, dq]

theorem scalarOut_no_newline (o : Option Str) : '\n' ∉ scalarOut o := by
  cases o with
  | none => simp [scalarOut]
  | some s => exact dq_no_newline s

theorem dq_ne_nil (s : Str) : dq s ≠ [] := by simp [dq]

theorem pmGo_dash (ts : List Str) : ∀ (k : Str) (items : List Str) acc rest,
    pmGo (some (k, items)) acc ((ts.map (fun t => '-' :: ' ' :: dq t)) ++ rest)
      = pmGo (some (k, items ++ ts)) acc rest := by
  induction ts with
  | nil => intro k items acc rest; simp
  | cons t ts' ih =>
    intro k items acc rest
    have hd : isDash ('-' :: ' ' :: dq t) = true := rfl
    have hdrop : (('-' :: ' ' :: dq t) : Str).drop 2 = dq t := rfl
    simp only [List.map_cons, List.cons_append, pmGo, hd, if_true, hdrop, parseScalar_dq,
      List.append_eq]
    rw [ih]
    simp

theorem pmGo_scalarLine (key : Str) (v : Str)
    (hnd : isDash (key ++ ':' :: ' ' :: v) = false) (hk : ':' ∉ key) (hv : v ≠ [])
    (y : YVal) (hy : parseScalar v = some y) :
    ∀ pending acc rest,
      pmGo pending acc ((key ++ ':' :: ' ' :: v) :: rest)
        = pmGo none ((key, y) :: flushPending pending acc) rest := by
  intro pending acc rest
  simp only [pmGo, hnd, Bool.false_eq_true, if_false, splitKV_lit key hk v, hv, hy]

theorem pmGo_keyOnly (key : Str) (hnd : isDash (key ++ [':']) = false) (hk : ':' ∉ key) :
    ∀ pending acc rest,
      pmGo pending acc ((key ++ [':']) :: rest)
        = pmGo (some (key, [])) (flushPending pending acc) rest := by
  intro pending acc rest
  simp only [pmGo, hnd, Bool.false_eq_true, if_false, splitKV_litEnd key hk]
  simp

theorem isDash_scalarOut_line (key : Str) (c : Char) (k' : Str) (hk : key = c :: k')
    (hc : c ≠ '-') (o : Option Str) :
    isDash (key ++ ':' :: ' ' :: scalarOut o) = false := by
  subst hk
  cases o with
  | none => simp [isDash.eq_def, hc]
  | some s => simp [isDash.eq_def, hc]

theorem pmGo_metaLines (m : Meta) : pmGo none [] (metaLines m) = some (metaKVs m) := by
  have hndC : isDash (("created").toList ++ ':' :: ' ' :: scalarOut m.created) = false :=
    isDash_scalarOut_line _ 'c' _ rfl (by decide) _
  have hndU : isDash (("updated").toList ++ ':' :: ' ' :: scalarOut m.updated) = false :=
    isDash_scalarOut_line _ 'u' _ rfl (by decide) _
  cases htags : m.tags with
  | nil =>
    have hml : metaLines m =
        (("title").toList ++ ':' :: ' ' :: dq m.title)
          :: (("tags").toList ++ ':' :: ' ' :: ("[]").toList)
          :: (("created").toList ++ ':' :: ' ' :: scalarOut m.created)
          :: (("updated").toList ++ ':' :: ' ' :: scalarOut m.updated) :: [] := by
      rw [metaLines, htags]
      rfl
    rw [hml]
    rw [pmGo_scalarLine (("title").toList) (dq m.title) rfl (by decide) (dq_ne_nil _)
      _ (parseScalar_dq _)]
    rw [pmGo_scalarLine (("tags").toList) (("[]").toList) rfl (by decide) (by decide)
      (.ylist []) rfl]
    rw [pmGo_scalarLine (("created").toList) (scalarOut m.created) hndC (by decide)
      (scalarOut_ne_nil _) _ (parseScalar_scalarOut _)]
    rw [pmGo_scalarLine (("updated").toList) (scalarOut m.updated) hndU (by decide)
      (scalarOut_ne_nil _) _ (parseScalar_scalarOut _)]
    simp [pmGo, flushPending, metaKVs, htags]
  | cons t ts =>
    have hml : metaLines m =
        (("title").toList ++ ':' :: ' ' :: dq m.title)
          :: (("tags").toList ++ [':'])
          :: (((t :: ts).map (fun x => '-' :: ' ' :: dq x)) ++
              ((("created").toList ++ ':' :: ' ' :: scalarOut m.created)
                :: (("updated").toList ++ ':' :: ' ' :: scalarOut m.updated) :: [])) := by
      rw [metaLines, htags]
      simp
    rw [hml]
    rw [pmGo_scalarLine (("title").toList) (dq m.title) rfl (by decide) (dq_ne_nil _)
      _ (parseScalar_dq _)]
    rw [pmGo_keyOnly (("tags").toList) rfl (by decide)]
    rw [pmGo_dash]
    rw [pmGo_scalarLine (("created").toList) (scalarOut m.created) hndC (by decide)
      (scalarOut_ne_nil _) _ (parseScalar_scalarOut _)]
    rw [pmGo_scalarLine (("updated").toList) (scalarOut m.updated) hndU (by decide)
      (scalarOut_ne_nil _) _ (parseScalar_scalarOut _)]
    simp [pmGo, flushPending, metaKVs, htags]

/-! ## Lemmas: line splitting and `yamlLoad` on emitted front-matter -/

theorem linesOf_append (l : Str) (h : '\n' ∉ l) (r : Str) :
    linesOf (l ++ '\n' :: r) = l :: linesOf r := by
  induction l with
  | nil => simp [linesOf]
  | cons c l' ih =>
    have hc : c ≠ '\n' := fun hh => h (by simp [hh])
    have h' : '\n' ∉ l' := fun hh => h (by simp [hh])
    simp only [List.cons_append, linesOf, hc, if_false, ih h', List.append_eq,
      Bool.false_eq_true]

theorem linesOf_joinLines (ls : List Str) (h : ∀ l ∈ ls, '\n' ∉ l) :
    linesOf (joinLines ls) = ls ++ [[]] := by
  induction ls with
  | nil => rfl
  | cons l ls' ih =>
    rw [joinLines, linesOf_append l (h l (by simp)), ih (fun x hx => h x (by simp [hx]))]
    rfl

theorem metaLines_no_newline (m : Meta) : ∀ l ∈ metaLines m, '\n' ∉ l := by
  intro l hl
  rw [metaLines] at hl
  rcases List.mem_cons.mp hl with h | h
  · subst h
    simp only [List.mem_append]
    rintro (h | h)
    · revert h; decide
    · exact dq_no_newline _ h
  · rcases List.mem_append.mp h with h | h
    · by_cases ht : m.tags = []
      · rw [if_pos ht] at h
        simp only [List.mem_singleton] at h
        subst h
        decide
      · rw [if_neg ht] at h
        rcases List.mem_cons.mp h with h | h
        · subst h; decide
        · obtain ⟨x, _, rfl⟩ := List.mem_map.mp h
          simp only [List.mem_cons]
          rintro (h | h | h)
          · simp at h
          · simp at h
          · exact dq_no_newline _ h
    · simp only [List.mem_cons, List.mem_singleton] at h
      rcases h with h | h | h
      · subst h
        simp only [List.mem_append]
        rintro (h | h)
        · revert h; decide
        · exact scalarOut_no_newline _ h
      · subst h
        simp only [List.mem_append]
        rintro (h | h)
        · revert h; decide
        · exact scalarOut_no_newline _ h
      · simp at h

theorem metaLines_ne_nil (m : Meta) : ∀ l ∈ metaLines m, l ≠ [] := by
  intro l hl
  rw [metaLines] at hl
  rcases List.mem_cons.mp hl with h | h
  · subst h; simp
  · rcases List.mem_append.mp h with h | h
    · by_cases ht : m.tags = []
      · rw [if_pos ht] at h
        simp only [List.mem_singleton] at h
        subst h; decide
      · rw [if_neg ht] at h
        rcases List.mem_cons.mp h with h | h
        · subst h; decide
        · obtain ⟨x, _, rfl⟩ := List.mem_map.mp h
          simp
    · simp only [List.mem_cons, List.mem_singleton] at h
      rcases h with h | h | h
      · subst h; simp
      · subst h; simp
      · simp at h

theorem filter_metaLines (m : Meta) :
    (metaLines m ++ [[]]).filter (fun l => l ≠ []) = metaLines m := by
  rw [List.filter_append]
  have h1 : (metaLines m).filter (fun l => l ≠ []) = metaLines m :=
    List.filter_eq_self.mpr (fun a ha => by simpa using metaLines_ne_nil m a ha)
  have h2 : ([([] : Str)] : List Str).filter (fun l => l ≠ []) = [] := by decide
  rw [h1, h2, List.append_nil]

theorem yamlLoad_metaLines (m : Meta) :
    yamlLoad (joinLines (metaLines m)) = some (.ymap (metaKVs m)) := by
  have hfilter : (linesOf (joinLines (metaLines m))).filter (fun l => l ≠ [])
      = metaLines m := by
    rw [linesOf_joinLines _ (metaLines_no_newline m), filter_metaLines]
  have hcons : metaLines m =
      (("title").toList ++ ':' :: ' ' :: dq m.title) :: (metaLines m).tail := by
    rw [metaLines]
    rfl
  rw [yamlLoad, hfilter, hcons]
  have hnd : isDash (("title").toList ++ ':' :: ' ' :: dq m.title) = false := rfl
  have hkv : splitKV (("title").toList ++ ':' :: ' ' :: dq m.title)
      = some ((("title").toList), dq m.title) := splitKV_lit _ (by decide) _
  simp only [hnd, Bool.false_eq_true, if_false, hkv, Option.isSome_some, if_true]
  rw [← hcons, pmGo_metaLines]
  rfl

/-! ## Lemmas: the front-matter regex on emitted text -/

/-- A line that can never begin the closing delimiter: at least three
characters, not starting with `---`, and newline-free. -/
def SafeLine (l : Str) : Prop :=
  '\n' ∉ l ∧ ∃ a b c r, l = a :: b :: c :: r ∧ ¬(a = '-' ∧ b = '-' ∧ c = '-')

theorem tryClose_safe (l : Str) (h : SafeLine l) (X : Str) : tryClose (l ++ X) = none := by
  obtain ⟨-, a, b, c, r, rfl, hne⟩ := h
  rw [tryClose]
  have : ((a :: b :: c :: r) ++ X).take 3 = [a, b, c] := by simp
  rw [this]
  rw [if_neg]
  intro hh
  injection hh with h1 hh
  injection hh with h2 hh
  injection hh with h3 _
  exact hne ⟨h1, h2, h3⟩

theorem findClose_line_close (l : Str) (h : '\n' ∉ l) (b : Str) :
    ∀ acc R, tryClose R = some b →
      findClose acc (l ++ '\n' :: R) = some (acc ++ l ++ ['\n'], b) := by
  induction l with
  | nil =>
    intro acc R hR
    simp [findClose, hR]
  | cons c l' ih =>
    intro acc R hR
    have hc : c ≠ '\n' := fun hh => h (by simp [hh])
    have h' : '\n' ∉ l' := fun hh => h (by simp [hh])
    simp only [List.cons_append, findClose, hc, if_false, Bool.false_eq_true, List.append_eq]
    rw [ih h' (acc ++ [c]) R hR]
    simp

theorem findClose_line_skip (l : Str) (h : '\n' ∉ l) :
    ∀ acc R, tryClose R = none →
      findClose acc (l ++ '\n' :: R) = findClose (acc ++ l ++ ['\n']) R := by
  induction l with
  | nil =>
    intro acc R hR
    simp [findClose, hR]
  | cons c l' ih =>
    intro acc R hR
    have hc : c ≠ '\n' := fun hh => h (by simp [hh])
    have h' : '\n' ∉ l' := fun hh => h (by simp [hh])
    simp only [List.cons_append, findClose, hc, if_false, Bool.false_eq_true, List.append_eq]
    rw [ih h' (acc ++ [c]) R hR]
    simp

theorem afterWsNl_close (C : Str) (hC : C = [] ∨ ∃ c cs, C = c :: cs ∧ isPySpace c = false) :
    afterWsNl ('\n' :: '\n' :: C) = some C := by
  rcases hC with rfl | ⟨c, cs, rfl, hc⟩
  · rfl
  · rw [afterWsNl]
    have hsp : isPySpace '\n' = true := by decide
    have hrun : (('\n' :: '\n' :: c :: cs) : Str).takeWhile isPySpace = ['\n', '\n'] := by
      simp [List.takeWhile, hc, hsp]
    rw [hrun]
    simp

theorem tryClose_end (C : Str) (hC : C = [] ∨ ∃ c cs, C = c :: cs ∧ isPySpace c = false) :
    tryClose ('-' :: '-' :: '-' :: '\n' :: '\n' :: C) = some C := by
  rw [tryClose]
  simp only [List.take, if_pos rfl, List.drop]
  exact afterWsNl_close C hC

theorem findClose_lines (ls : List Str) (C : Str)
    (hC : C = [] ∨ ∃ c cs, C = c :: cs ∧ isPySpace c = false) :
    ∀ acc, ls ≠ [] → (∀ l ∈ ls, SafeLine l) →
      findClose acc (joinLines ls ++ '-' :: '-' :: '-' :: '\n' :: '\n' :: C)
        = some (acc ++ joinLines ls, C) := by
  induction ls with
  | nil => intro acc h _; exact absurd rfl h
  | cons l ls' ih =>
    intro acc _ hsafe
    have hl : '\n' ∉ l := (hsafe l (by simp)).1
    cases hls' : ls' with
    | nil =>
      subst hls'
      have : joinLines [l] ++ '-' :: '-' :: '-' :: '\n' :: '\n' :: C
          = l ++ '\n' :: ('-' :: '-' :: '-' :: '\n' :: '\n' :: C) := by
        simp [joinLines]
      rw [this, findClose_line_close l hl C acc _ (tryClose_end C hC)]
      simp [joinLines]
    | cons l2 ls'' =>
      have hsafe2 : SafeLine l2 := hsafe l2 (by simp [hls'])
      have hjoin : joinLines (l :: l2 :: ls'') ++ '-' :: '-' :: '-' :: '\n' :: '\n' :: C
          = l ++ '\n' :: (joinLines (l2 :: ls'') ++ '-' :: '-' :: '-' :: '\n' :: '\n' :: C) := by
        simp [joinLines]
      have htc : tryClose (joinLines (l2 :: ls'') ++ '-' :: '-' :: '-' :: '\n' :: '\n' :: C)
          = none := by
        have : joinLines (l2 :: ls'') ++ '-' :: '-' :: '-' :: '\n' :: '\n' :: C
            = l2 ++ ('\n' :: joinLines ls'' ++ '-' :: '-' :: '-' :: '\n' :: '\n' :: C) := by
          simp [joinLines]
        rw [this]
        exact tryClose_safe l2 hsafe2 _
      subst hls'
      rw [hjoin, findClose_line_skip l hl acc _ htc,
        ih (acc ++ l ++ ['\n']) (by simp) (fun x hx => hsafe x (by simp [hx]))]
      simp [joinLines]

theorem metaLines_safe (m : Meta) : ∀ l ∈ metaLines m, SafeLine l := by
  intro l hl
  refine ⟨metaLines_no_newline m l hl, ?_⟩
  rw [metaLines] at hl
  rcases List.mem_cons.mp hl with h | h
  · subst h
    exact ⟨'t', 'i', 't', _, rfl, by decide⟩
  · rcases List.mem_append.mp h with h | h
    · by_cases ht : m.tags = []
      · rw [if_pos ht] at h
        simp only [List.mem_singleton] at h
        subst h
        exact ⟨'t', 'a', 'g', _, rfl, by decide⟩
      · rw [if_neg ht] at h
        rcases List.mem_cons.mp h with h | h
        · subst h
          exact ⟨'t', 'a', 'g', _, rfl, by decide⟩
        · obtain ⟨x, _, rfl⟩ := List.mem_map.mp h
          exact ⟨'-', ' ', '"', _, rfl, by decide⟩
    · simp only [List.mem_cons, List.mem_singleton] at h
      rcases h with h | h | h
      · subst h
        exact ⟨'c', 'r', 'e', _, rfl, by decide⟩
      · subst h
        exact ⟨'u', 'p', 'd', _, rfl, by decide⟩
      · simp at h

theorem metaLines_ne_nil_list (m : Meta) : metaLines m ≠ [] := by
  rw [metaLines]
  simp

theorem afterWsNl_cons (c : Char) (R' : Str) (hc : isPySpace c = false) :
    afterWsNl ('\n' :: c :: R') = some (c :: R') := by
  rw [afterWsNl]
  have hsp : isPySpace '\n' = true := by decide
  have hrun : (('\n' :: c :: R') : Str).takeWhile isPySpace = ['\n'] := by
    simp [List.takeWhile, hc, hsp]
  rw [hrun]
  simp

theorem fmSplit_generate (m : Meta) (C : Str)
    (hC : C = [] ∨ ∃ c cs, C = c :: cs ∧ isPySpace c = false) :
    fmSplit ('-' :: '-' :: '-' :: '\n'
        :: (joinLines (metaLines m) ++ ('-' :: '-' :: '-' :: '\n' :: '\n' :: C)))
      = some (joinLines (metaLines m), C) := by
  have hjl : joinLines (metaLines m) ++ ('-' :: '-' :: '-' :: '\n' :: '\n' :: C)
      = 't' :: (("itle: ").toList ++ (dq m.title ++ '\n'
          :: (joinLines ((metaLines m).tail) ++ ('-' :: '-' :: '-' :: '\n' :: '\n' :: C)))) := by
    conv_lhs =>
      rw [show metaLines m = (("title: ").toList ++ dq m.title) :: (metaLines m).tail from rfl]
    rw [joinLines, show ("title: ").toList = 't' :: ("itle: ").toList from rfl]
    simp [List.append_assoc]
  have hstep : fmSplit ('-' :: '-' :: '-' :: '\n'
      :: (joinLines (metaLines m) ++ ('-' :: '-' :: '-' :: '\n' :: '\n' :: C)))
      = match afterWsNl ('\n'
          :: (joinLines (metaLines m) ++ ('-' :: '-' :: '-' :: '\n' :: '\n' :: C))) with
        | none => none
        | some rest => findClose [] rest := rfl
  rw [hstep, hjl, afterWsNl_cons _ _ (by decide), ← hjl]
  show findClose [] (joinLines (metaLines m) ++ ('-' :: '-' :: '-' :: '\n' :: '\n' :: C))
      = some (joinLines (metaLines m), C)
  rw [findClose_lines (metaLines m) C hC [] (metaLines_ne_nil_list m) (metaLines_safe m)]
  simp

theorem parse_save (n : Note) :
    parse_yaml_front_matter ((save_note n).1)
      = (metaKVs ⟨n.title, n.tags, n.created, n.updated⟩, pyStrip n.content) := by
  have hC := pyStrip_head n.content
  have hshape : (save_note n).1
      = '-' :: '-' :: '-' :: '\n' :: (joinLines (metaLines ⟨n.title, n.tags, n.created, n.updated⟩)
          ++ ('-' :: '-' :: '-' :: '\n' :: '\n' :: pyStrip n.content)) := by
    simp [save_note, generate_yaml_front_matter]
  rw [hshape, parse_yaml_front_matter, fmSplit_generate _ _ hC]
  simp [yamlLoad_metaLines]

theorem yvalTs_optY (o : Option Str) : yvalTs (optY o) = o := by
  cases o <;> rfl

/-- Claim C2 (front-matter round trip): saving any Note and loading the
written text back yields the same `title`, `tags`, `created` and
`updated`, and the same `content` up to whitespace stripping of both
sides. -/
theorem save_load_roundtrip (n : Note) (now : Str) :
    (load_note n.filepath (save_note n).1 now).title = n.title
    ∧ (load_note n.filepath (save_note n).1 now).tags = n.tags
    ∧ (load_note n.filepath (save_note n).1 now).created = n.created
    ∧ (load_note n.filepath (save_note n).1 now).updated = n.updated
    ∧ pyStrip (load_note n.filepath (save_note n).1 now).content = pyStrip n.content := by
  have hp := parse_save n
  have g1 : dictGet (metaKVs ⟨n.title, n.tags, n.created, n.updated⟩)
      ['t', 'i', 't', 'l', 'e'] = some (.ystr n.title) := rfl
  have g2 : dictGet (metaKVs ⟨n.title, n.tags, n.created, n.updated⟩)
      ['t', 'a', 'g', 's'] = some (.ylist n.tags) := rfl
  have g3 : dictGet (metaKVs ⟨n.title, n.tags, n.created, n.updated⟩)
      ['c', 'r', 'e', 'a', 't', 'e', 'd'] = some (optY n.created) := rfl
  have g4 : dictGet (metaKVs ⟨n.title, n.tags, n.created, n.updated⟩)
      ['u', 'p', 'd', 'a', 't', 'e', 'd'] = some (optY n.updated) := rfl
  simp [load_note, hp, g1, g2, g3, g4, yvalTs_optY, yvalTags, pyStrip_idem]

/-! ## Lemmas: search -/

theorem searchGo_filter (qts : List Str) (st sts sc : Bool) :
    ∀ (es : List SearchEntry) (res : List Note) (seen : List Str),
      (es.map (fun e => e.id)).Nodup → (∀ e ∈ es, e.id ∉ seen) →
      searchGo qts st sts sc es res seen
        = res ++ (es.filter (entryMatches qts st sts sc)).map (fun e => e.original) := by
  intro es
  induction es with
  | nil => intro res seen _ _; simp [searchGo]
  | cons e es' ih =>
    intro res seen hnd hseen
    rw [List.map_cons] at hnd
    have hndTail : (List.map (fun e => e.id) es').Nodup := (List.nodup_cons.mp hnd).2
    have hndHead : e.id ∉ es'.map (fun e => e.id) := (List.nodup_cons.mp hnd).1
    cases hm : entryMatches qts st sts sc e with
    | true =>
      have hid : e.id ∉ seen := hseen e (by simp)
      rw [searchGo, if_pos hm, if_neg hid]
      rw [ih (res ++ [e.original]) (e.id :: seen) hndTail ?_]
      · simp [List.filter_cons, hm]
      · intro e' he'
        simp only [List.mem_cons, not_or]
        constructor
        · intro hh
          exact hndHead (by rw [← hh]; exact List.mem_map_of_mem _ he')
        · exact hseen e' (by simp [he'])
    | false =>
      rw [searchGo, if_neg (by simp [hm])]
      rw [ih res seen hndTail (fun x hx => hseen x (by simp [hx]))]
      simp [List.filter_cons, hm]

theorem build_index_ids (notes : List Note) :
    (build_index notes).map (fun e => e.id) = notes.map Note.filepath := by
  rw [build_index, List.map_map]
  rfl

theorem search_eq_filter (notes : List Note) (q : Str) (st sts sc : Bool)
    (h : (notes.map Note.filepath).Nodup) :
    search (build_index notes) q st sts sc
      = if pyStrip q = [] then notes else notes.filter (noteMatches q st sts sc) := by
  by_cases hq : pyStrip q = []
  · rw [search, if_pos hq, if_pos hq, build_index, List.map_map]
    exact List.map_id notes
  · rw [search, if_neg hq, if_neg hq]
    rw [searchGo_filter (pySplit (lowerStr q)) st sts sc (build_index notes) [] []
      (by rw [build_index_ids]; exact h) (by simp)]
    rw [List.nil_append, build_index, List.filter_map indexEntry notes, List.map_map]
    exact List.map_id _

theorem searchGo_all_miss (qts : List Str) (st sts sc : Bool)
    (hall : ∀ e : SearchEntry, entryMatches qts st sts sc e = false) :
    ∀ (es : List SearchEntry) (res : List Note) (seen : List Str),
      searchGo qts st sts sc es res seen = res := by
  intro es
  induction es with
  | nil => intro res seen; rfl
  | cons e es' ih =>
    intro res seen
    rw [searchGo, if_neg (by simp [hall e])]
    exact ih res seen

theorem pySplitGo_mem_ne_nil :
    ∀ (s : Str) (acc : Str) (w : Str), w ∈ pySplitGo s acc → w ≠ [] := by
  intro s
  induction s with
  | nil =>
    intro acc w hw
    by_cases ha : acc = []
    · simp [pySplitGo, ha] at hw
    · simp only [pySplitGo, if_neg ha, List.mem_singleton] at hw
      subst hw
      simpa using ha
  | cons c r ih =>
    intro acc w hw
    by_cases hc : isPySpace c = true
    · by_cases ha : acc = []
      · rw [pySplitGo] at hw
        rw [if_pos hc, if_pos ha] at hw
        exact ih [] w hw
      · rw [pySplitGo] at hw
        rw [if_pos hc, if_neg ha] at hw
        rcases List.mem_cons.mp hw with hh | hh
        · subst hh; simpa using ha
        · exact ih [] w hh
    · rw [pySplitGo] at hw
      rw [if_neg hc] at hw
      exact ih (c :: acc) w hw

theorem pySplitGo_acc_ne_nil : ∀ (s : Str) (acc : Str), acc ≠ [] → pySplitGo s acc ≠ [] := by
  intro s
  induction s with
  | nil => intro acc ha; simp [pySplitGo, ha]
  | cons c r ih =>
    intro acc ha
    by_cases hc : isPySpace c = true
    · rw [pySplitGo]
      rw [if_pos hc, if_neg ha]
      simp
    · rw [pySplitGo]
      rw [if_neg hc]
      exact ih (c :: acc) (by simp)

theorem pySplitGo_nonempty :
    ∀ (s : Str) (acc : Str), (∃ c ∈ s, isPySpace c = false) → pySplitGo s acc ≠ [] := by
  intro s
  induction s with
  | nil => intro acc h; obtain ⟨c, hc, _⟩ := h; simp at hc
  | cons c r ih =>
    intro acc h
    by_cases hc : isPySpace c = true
    · obtain ⟨c', hc', hcf⟩ := h
      rcases List.mem_cons.mp hc' with hh | hh
      · subst hh; rw [hc] at hcf; cases hcf
      · by_cases ha : acc = []
        · rw [pySplitGo]
          rw [if_pos hc, if_pos ha]
          exact ih [] ⟨c', hh, hcf⟩
        · rw [pySplitGo]
          rw [if_pos hc, if_neg ha]
          simp
    · rw [pySplitGo]
      rw [if_neg hc]
      exact pySplitGo_acc_ne_nil r (c :: acc) (by simp)

theorem exists_nonspace_of_strip (q : Str) (h : pyStrip q ≠ []) :
    ∃ c ∈ q, isPySpace c = false := by
  by_contra hno
  apply h
  apply pyStrip_all_space
  intro c hc
  by_contra hcf
  exact hno ⟨c, hc, by simpa using hcf⟩

theorem isPySpace_pyLowerChar (c : Char) : isPySpace (pyLowerChar c) = isPySpace c := by
  rw [pyLowerChar]
  cases hf : ucPairs.find? (fun p => p.1 = c) with
  | none => rfl
  | some p =>
    have hmem : p ∈ ucPairs := List.mem_of_find?_eq_some hf
    have hpc : p.1 = c := by simpa using List.find?_some hf
    have hall : ∀ q ∈ ucPairs, isPySpace q.2 = false ∧ isPySpace q.1 = false := by decide
    rw [(hall p hmem).1, ← hpc, (hall p hmem).2]

theorem search_all_flags_off (idx : List SearchEntry) (q : Str) (h : pyStrip q ≠ []) :
    search idx q false false false = [] := by
  rw [search, if_neg h]
  obtain ⟨c, hc, hcf⟩ := exists_nonspace_of_strip q h
  have hmem : pyLowerChar c ∈ lowerStr q := List.mem_map_of_mem _ hc
  have hlow : isPySpace (pyLowerChar c) = false := by
    rw [isPySpace_pyLowerChar]; exact hcf
  have hqts : pySplit (lowerStr q) ≠ [] :=
    pySplitGo_nonempty (lowerStr q) [] ⟨_, hmem, hlow⟩
  have hmatch : ∀ e : SearchEntry,
      entryMatches (pySplit (lowerStr q)) false false false e = false := by
    intro e
    rw [entryMatches]
    have hf : joinSp (searchFields e false false false) = [] := rfl
    rw [hf]
    obtain ⟨w, hw⟩ := List.exists_mem_of_ne_nil _ hqts
    have hwne : w ≠ [] := pySplitGo_mem_ne_nil _ _ w hw
    apply List.all_eq_false.mpr
    refine ⟨w, hw, ?_⟩
    cases w with
    | nil => exact absurd rfl hwne
    | cons a as => simp [substr, isPre]
  exact searchGo_all_miss _ _ _ _ hmatch idx [] []

/-! ## Lemmas: code-point-lexicographic order and `get_all_tags` -/

theorem strLt_nil_cons (b : Char) (bs : Str) : strLt [] (b :: bs) = true := rfl

theorem strLt_cons (a b : Char) (as bs : Str) :
    strLt (a :: as) (b :: bs) = (decide (a < b) || (decide (a = b) && strLt as bs)) := rfl

theorem strLt_irrefl : ∀ a : Str, strLt a a = false := by
  intro a
  induction a with
  | nil => rfl
  | cons c as ih => simp [strLt_cons, lt_irrefl, ih]

theorem strLt_trans : ∀ a b c : Str, strLt a b = true → strLt b c = true → strLt a c = true := by
  intro a
  induction a with
  | nil =>
    intro b c hab hbc
    cases b with
    | nil => simp [strLt] at hab
    | cons y bs =>
      cases c with
      | nil => simp [strLt] at hbc
      | cons z cs => rfl
  | cons x as ih =>
    intro b c hab hbc
    cases b with
    | nil => simp [strLt] at hab
    | cons y bs =>
      cases c with
      | nil => simp [strLt] at hbc
      | cons z cs =>
        simp only [strLt_cons, Bool.or_eq_true, Bool.and_eq_true, decide_eq_true_eq]
          at hab hbc ⊢
        rcases hab with h1 | ⟨he1, hr1⟩
        · rcases hbc with h2 | ⟨he2, hr2⟩
          · exact Or.inl (lt_trans h1 h2)
          · subst he2; exact Or.inl h1
        · subst he1
          rcases hbc with h2 | ⟨he2, hr2⟩
          · exact Or.inl h2
          · subst he2; exact Or.inr ⟨rfl, ih bs cs hr1 hr2⟩

theorem strLt_conn : ∀ a b : Str, strLt a b = false → strLt b a = false → a = b := by
  intro a
  induction a with
  | nil =>
    intro b hab _
    cases b with
    | nil => rfl
    | cons y bs => simp [strLt] at hab
  | cons x as ih =>
    intro b hab hba
    cases b with
    | nil => simp [strLt] at hba
    | cons y bs =>
      simp only [strLt_cons, Bool.or_eq_false_iff, Bool.and_eq_false_iff,
        decide_eq_false_iff_not] at hab hba
      have hxy : x = y := le_antisymm (not_lt.mp hba.1) (not_lt.mp hab.1)
      subst hxy
      rcases hab.2 with h | h
      · exact absurd rfl h
      · rcases hba.2 with h' | h'
        · exact absurd rfl h'
        · rw [ih bs h h']

theorem strLt_cases (a b : Str) : strLt a b = true ∨ a = b ∨ strLt b a = true := by
  by_cases h1 : strLt a b = true
  · exact Or.inl h1
  · by_cases h2 : strLt b a = true
    · exact Or.inr (Or.inr h2)
    · exact Or.inr (Or.inl (strLt_conn a b (by simpa using h1) (by simpa using h2)))

instance : IsTotal Str strLe := by
  constructor
  intro a b
  by_cases h : strLt b a = true
  · right
    rw [strLe]
    by_cases h2 : strLt a b = true
    · have := strLt_trans a b a h2 h
      rw [strLt_irrefl a] at this
      cases this
    · simpa using h2
  · left
    rw [strLe]
    simpa using h

instance : IsTrans Str strLe := by
  constructor
  intro a b c hab hbc
  rw [strLe] at hab hbc ⊢
  by_cases hca : strLt c a = true
  · rcases strLt_cases c b with h | h | h
    · rw [hbc] at h; cases h
    · subst h; rw [hab] at hca; cases hca
    · have := strLt_trans b c a h hca
      rw [hab] at this; cases this
  · simpa using hca

theorem mem_allNoteTags (notes : List Note) (t : Str) :
    t ∈ allNoteTags (build_index notes) ↔ ∃ n ∈ notes, t ∈ n.tags := by
  induction notes with
  | nil => simp [allNoteTags, build_index]
  | cons n ns ih =>
    rw [build_index, List.map_cons]
    rw [allNoteTags]
    rw [← build_index]
    simp only [List.mem_append, ih, List.mem_cons]
    constructor
    · rintro (h | ⟨n', hn', ht⟩)
      · exact ⟨n, Or.inl rfl, h⟩
      · exact ⟨n', Or.inr hn', ht⟩
    · rintro ⟨n', hn' | hn', ht⟩
      · subst hn'; exact Or.inl ht
      · exact Or.inr ⟨n', hn', ht⟩

theorem get_all_tags_mem (notes : List Note) (t : Str) :
    t ∈ get_all_tags (build_index notes) ↔ ∃ n ∈ notes, t ∈ n.tags := by
  rw [get_all_tags, (List.perm_insertionSort strLe _).mem_iff, List.mem_dedup]
  exact mem_allNoteTags notes t

theorem get_all_tags_strictSorted (idx : List SearchEntry) :
    (get_all_tags idx).Pairwise (fun a b => strLt a b = true) := by
  have hs : (get_all_tags idx).Pairwise strLe := by
    rw [get_all_tags]
    exact List.sorted_insertionSort strLe _
  have hn : (get_all_tags idx).Nodup := by
    rw [get_all_tags]
    exact ((List.perm_insertionSort strLe _).nodup_iff).mpr (List.nodup_dedup _)
  refine (hs.and hn).imp ?_
  rintro a b ⟨hle, hne⟩
  rw [strLe] at hle
  rcases strLt_cases a b with h | h | h
  · exact h
  · exact absurd h hne
  · rw [hle] at h; cases h

/-! ## Lemmas: directory scan -/

theorem scan_pipeline (nd now : Str) : ∀ files : List (Str × Option Str),
    scan_notes_directory nd (some files) now
      = (files.filter (fun f => globMd f.1 && f.2.isSome)).map
          (fun f => load_note (pathJoin nd f.1) (f.2.getD []) now) := by
  intro files
  induction files with
  | nil => rfl
  | cons f fs ih =>
    obtain ⟨name, txt⟩ := f
    rw [scan_notes_directory] at ih ⊢
    cases hg : globMd name with
    | false => simpa [List.filter_cons, hg] using ih
    | true =>
      cases txt with
      | none => simpa [List.filter_cons, hg] using ih
      | some t => simpa [List.filter_cons, hg] using ih

/-! ## Example notes used by the spec's concrete test cases -/

/-- First note of the spec's search example (content unspecified there,
taken empty). -/
def exNote1 : Note :=
  { filepath := ("/notes/n1.md").toList
    title := ("Python Web Development").toList
    tags := [("python").toList, ("web").toList]
    created := some (("2024-01-01T00:00:00+00:00").toList)
    updated := some (("2024-01-01T00:00:00+00:00").toList)
    content := [] }

/-- Second note of the spec's search example. -/
def exNote2 : Note :=
  { filepath := ("/notes/n2.md").toList
    title := ("Project Ideas: Python").toList
    tags := [("python").toList, ("ideas").toList]
    created := some (("2024-01-02T00:00:00+00:00").toList)
    updated := some (("2024-01-02T00:00:00+00:00").toList)
    content := [] }

/-- A note tagged `Hobby` (capital H), for the tag-casing example. -/
def noteHobbyUpper : Note :=
  { filepath := ("/notes/a.md").toList, title := ("A").toList
    tags := [("Hobby").toList], created := none, updated := none, content := [] }

/-- A note tagged `hobby` (lower case), for the tag-casing example. -/
def noteHobbyLower : Note :=
  { filepath := ("/notes/b.md").toList, title := ("B").toList
    tags := [("hobby").toList], created := none, updated := none, content := [] }

/-! ## The claims -/

/-- Claim C1 (code bug in `create_new_note`): the slug expression calls
the non-existent `str` attribute `Gsub` (a Ruby method name slipped in
for `re.sub`), so for every title the call raises `AttributeError`
instead of deriving the slug and returning a Note or a failure signal —
contrary to the spec and to the repository's own tests
(`test_01_create_new_note`, `test_08_create_note_with_duplicate_title_slug`). -/
theorem create_new_note_always_raises (nd title : Str) (tags : List Str) (content : Str) :
    create_new_note nd title tags content = Except.error PyExc.attributeError := rfl

/-- Claim C3 (search semantics): on an index built from notes with
distinct filepaths (a spec §3 invariant), `search` returns, in build
order, exactly the notes for which every whitespace-split term of the
lower-cased query occurs as a contiguous substring of the enabled
lower-cased fields joined with single spaces; an empty query returns
all notes.  The four concrete examples of the spec hold. -/
theorem search_semantics :
    (∀ (notes : List Note) (q : Str) (st sts sc : Bool),
        (notes.map Note.filepath).Nodup →
        search (build_index notes) q st sts sc
          = if pyStrip q = [] then notes else notes.filter (noteMatches q st sts sc))
    ∧ search (build_index [exNote1, exNote2]) (("python ideas").toList) true true true
        = [exNote2]
    ∧ search (build_index [exNote1, exNote2]) (("python").toList) true true true
        = [exNote1, exNote2]
    ∧ search (build_index [exNote1, exNote2]) (("nonexistent_term_xyz").toList) true true true
        = []
    ∧ search (build_index [exNote1, exNote2]) [] true true true = [exNote1, exNote2] :=
  ⟨search_eq_filter, by decide, by decide, by decide, by decide⟩

/-- Witness for C3: the general statement applied to the spec's two-note
example and the query `python`, with the distinct-filepath hypothesis
discharged by computation. -/
theorem search_semantics_witness :
    ([exNote1, exNote2].map Note.filepath).Nodup
    ∧ search (build_index [exNote1, exNote2]) (("python").toList) true true true
        = if pyStrip (("python").toList) = [] then [exNote1, exNote2]
          else [exNote1, exNote2].filter (noteMatches (("python").toList) true true true) :=
  ⟨by decide, search_semantics.1 [exNote1, exNote2] (("python").toList) true true true (by decide)⟩

/-- Claim C4 as stated is false: when the front-matter block is present
and its interior is valid YAML denoting a non-mapping (here the scalar
`hello`), the body returned is the text after the block, not the entire
original text. -/
theorem parse_nonmapping_counterexample :
    fmSplit (("---\nhello\n---\nbody").toList)
        = some ((("hello\n").toList), (("body").toList))
    ∧ (parse_yaml_front_matter (("---\nhello\n---\nbody").toList)).2 = ("body").toList
    ∧ (parse_yaml_front_matter (("---\nhello\n---\nbody").toList)).2
        ≠ ("---\nhello\n---\nbody").toList :=
  ⟨rfl, rfl, by decide⟩

/-- Claim C4 amended: with a front-matter block present, malformed YAML
yields the empty mapping with the entire original text as body, while
valid YAML denoting a non-mapping yields the empty mapping with the
text after the block as body; the parse is a total function, so it
never raises. -/
theorem parse_front_matter_degrades (s inner body : Str)
    (h : fmSplit s = some (inner, body)) :
    (yamlLoad inner = none → parse_yaml_front_matter s = ([], s))
    ∧ (∀ v, yamlLoad inner = some v → (∀ kvs, v ≠ .ymap kvs) →
        parse_yaml_front_matter s = ([], body)) := by
  constructor
  · intro hl
    simp [parse_yaml_front_matter, h, hl]
  · intro v hv hnm
    cases v with
    | ymap kvs => exact absurd rfl (hnm kvs)
    | ystr s' => simp [parse_yaml_front_matter, h, hv]
    | ynull => simp [parse_yaml_front_matter, h, hv]
    | ylist xs => simp [parse_yaml_front_matter, h, hv]

/-- Witness for the amended C4: the scalar-interior example, with both
hypotheses discharged by computation. -/
theorem parse_front_matter_degrades_witness :
    yamlLoad (("hello\n").toList) = some (.ystr (("hello").toList))
    ∧ parse_yaml_front_matter (("---\nhello\n---\nbody").toList)
        = ([], ("body").toList) :=
  ⟨rfl,
    (parse_front_matter_degrades (("---\nhello\n---\nbody").toList)
      (("hello\n").toList) (("body").toList) rfl).2
      (.ystr (("hello").toList)) rfl (fun _ h => YVal.noConfusion h)⟩

/-- Claim C5 as stated is false: `delete_note_file` returns the same
value (`False`) for a missing path as for a failing removal of an
existing file, so the not-found outcome is not distinguishable from an
I/O failure by the caller. -/
theorem delete_not_distinguishable_counterexample :
    delete_note_file DeleteFs.missing = delete_note_file DeleteFs.removeRaises := rfl

/-- Claim C5 amended: deleting a non-existent path returns `False`
without raising — the same value the `except` branch returns on an I/O
failure — and `True` is returned only when an existing file is
removed. -/
theorem delete_outcomes :
    delete_note_file DeleteFs.missing = false
    ∧ delete_note_file DeleteFs.removable = true
    ∧ delete_note_file DeleteFs.removeRaises = false :=
  ⟨rfl, rfl, rfl⟩

/-- Claim C6 (defaults on missing metadata): when the parsed front
matter of the file's text is empty (absent, malformed, or non-mapping),
`load_note` still yields a Note, with `title` the file's base name
without extension, `tags` empty, `created` the load-time timestamp and
`updated` equal to `created`. -/
theorem load_note_defaults (filepath text now : Str)
    (h : (parse_yaml_front_matter text).1 = []) :
    (load_note filepath text now).title = splitextBase (basename filepath)
    ∧ (load_note filepath text now).tags = []
    ∧ (load_note filepath text now).created = some now
    ∧ (load_note filepath text now).updated = some now := by
  simp [load_note, h, dictGet]

/-- Witness for C6: a body-only file, with the empty-metadata hypothesis
discharged by computation. -/
theorem load_note_defaults_witness :
    (parse_yaml_front_matter (("# Just Content\nNo YAML here.").toList)).1 = []
    ∧ (load_note (("/dir/no_front_matter.md").toList)
          (("# Just Content\nNo YAML here.").toList)
          (("2024-07-15T08:30:00+00:00").toList)).title = ("no_front_matter").toList
    ∧ (load_note (("/dir/no_front_matter.md").toList)
          (("# Just Content\nNo YAML here.").toList)
          (("2024-07-15T08:30:00+00:00").toList)).tags = []
    ∧ (load_note (("/dir/no_front_matter.md").toList)
          (("# Just Content\nNo YAML here.").toList)
          (("2024-07-15T08:30:00+00:00").toList)).created
        = some (("2024-07-15T08:30:00+00:00").toList)
    ∧ (load_note (("/dir/no_front_matter.md").toList)
          (("# Just Content\nNo YAML here.").toList)
          (("2024-07-15T08:30:00+00:00").toList)).updated
        = some (("2024-07-15T08:30:00+00:00").toList) := by
  have h := load_note_defaults (("/dir/no_front_matter.md").toList)
    (("# Just Content\nNo YAML here.").toList) (("2024-07-15T08:30:00+00:00").toList) rfl
  exact ⟨rfl, h.1.trans (by rfl), h.2.1, h.2.2.1, h.2.2.2⟩

/-- Claim C7 (tag aggregation): `get_all_tags` returns exactly the union
of the indexed notes' tags in original casing (membership equivalence),
strictly sorted by code-point-lexicographic order (hence deduplicated
only as exact strings); in particular `Hobby` and `hobby` on two notes
both appear, as two sorted entries. -/
theorem all_tags_spec :
    (∀ (notes : List Note) (t : Str),
        t ∈ get_all_tags (build_index notes) ↔ ∃ n ∈ notes, t ∈ n.tags)
    ∧ (∀ idx : List SearchEntry,
        (get_all_tags idx).Pairwise (fun a b => strLt a b = true))
    ∧ get_all_tags (build_index [noteHobbyUpper, noteHobbyLower])
        = [("Hobby").toList, ("hobby").toList] :=
  ⟨get_all_tags_mem, get_all_tags_strictSorted, by decide⟩

/-- Claim C8 (scan skips failures): `scan_notes_directory` returns the
empty list when the directory does not exist, and otherwise returns
exactly the notes loaded from the readable `.md` files of the listing,
in order, skipping every file whose read fails — so with N loadable
`.md` files and any number of failing ones, exactly N notes come
back. -/
theorem scan_skips_failures :
    (∀ nd now : Str, scan_notes_directory nd none now = [])
    ∧ (∀ (nd : Str) (files : List (Str × Option Str)) (now : Str),
        scan_notes_directory nd (some files) now
          = (files.filter (fun f => globMd f.1 && f.2.isSome)).map
              (fun f => load_note (pathJoin nd f.1) (f.2.getD []) now)
        ∧ (scan_notes_directory nd (some files) now).length
            = (files.filter (fun f => globMd f.1 && f.2.isSome)).length) := by
  refine ⟨fun nd now => rfl, fun nd files now => ⟨scan_pipeline nd now files, ?_⟩⟩
  rw [scan_pipeline nd now files, List.length_map]

/-- Claim C9 (save does not mutate the note): `save_note` reads the
note's fields to build the metadata dictionary and the file text but
never assigns to them, so the note object after the call equals the
note before it — in particular `updated` is untouched; bumping it is
the caller's responsibility. -/
theorem save_note_no_mutation (n : Note) :
    (save_note n).2 = n ∧ (save_note n).2.updated = n.updated :=
  ⟨rfl, rfl⟩

/-- Claim C10 (all search flags off): with `search_title`,
`search_tags` and `search_content` all false, any query with a
non-whitespace character returns no notes (the joined searchable text
is empty and every term is non-empty), while an empty or
whitespace-only query still returns all indexed notes regardless of the
flags. -/
theorem search_flag_gate :
    (∀ (idx : List SearchEntry) (q : Str), pyStrip q ≠ [] →
        search idx q false false false = [])
    ∧ (∀ (idx : List SearchEntry) (q : Str) (st sts sc : Bool), pyStrip q = [] →
        search idx q st sts sc = idx.map (fun e => e.original)) := by
  constructor
  · exact search_all_flags_off
  · intro idx q st sts sc h
    rw [search, if_pos h]

/-- Witness for C10: a concrete index with the query `python` and all
flags off, and a whitespace-only query with all flags on. -/
theorem search_flag_gate_witness :
    (pyStrip (("python").toList) ≠ []
      ∧ search (build_index [exNote1, exNote2]) (("python").toList) false false false = [])
    ∧ (pyStrip (("   ").toList) = []
      ∧ search (build_index [exNote1, exNote2]) (("   ").toList) true true true
          = (build_index [exNote1, exNote2]).map (fun e => e.original)) :=
  ⟨⟨by decide, search_flag_gate.1 (build_index [exNote1, exNote2]) (("python").toList) (by decide)⟩,
   ⟨by decide, search_flag_gate.2 (build_index [exNote1, exNote2]) (("   ").toList)
      true true true (by decide)⟩⟩
